import Mathlib

/-!
Verification development for the pattern-match planner and sorted-intersection
executor of a graph/relational query engine.

The executor side (`executor/read/immediate_executor.rs`) is embedded around a
concrete model of the external `SortedIterator`/`TupleIterator` capability
(spec section 6): an iterator is the list of its remaining sorted rows, each
row carrying its first-unbound (sort-variable) value and the column values the
row would write.  Machine integers (`u64`, `u32`) are modelled as `Nat`; the
claims under consideration never exercise overflow.

The planner side (`compiler/executable/match_/planner/plan.rs`) is embedded
parametrically over the pattern graph and the per-vertex cost oracle (the
vertex planners live outside the published sources; their interface,
`cost_and_metadata` and friends, follows spec section 4.2).  `f64` costs are
modelled as exact rationals; the constants involved (1.0, 0.05) are exactly
representable.  Everywhere the Rust code iterates a `HashSet`, the embedding
takes an explicit enumeration function, so that dependence of results on
hash-set iteration order can be stated and settled.
-/

namespace TypeDb

/-- A single row of a sorted storage iterator: the first-unbound value on the
sort variable (`key`) and the `(position, value)` pairs `write_values` would
merge into an output row.  Modelled from the spec: the `TupleIterator`
capability itself lives outside the published sources; only its interface
(`peek`, `peek_first_unbound_value`, `advance_single`,
`advance_until_first_unbound_is`, `advance_past`, `write_values`) is given in
spec section 6. -/
structure IterRow where
  key : Nat
  vals : List (Nat × Nat)
  deriving DecidableEq, Repr

/-- A sorted tuple iterator: the list of its remaining rows, sorted by `key`. -/
structure TupleIt where
  rows : List IterRow
  deriving DecidableEq, Repr

/-- `peek`: is there a current row? (mirrors `TupleIterator::peek().is_some()`). -/
def TupleIt.peekSome (it : TupleIt) : Bool :=
  it.rows.isEmpty = false

/-- `peek_first_unbound_value`: the sort-variable value of the current row. -/
def TupleIt.peekFirstUnbound (it : TupleIt) : Option Nat :=
  it.rows.head?.map (fun r => r.key)

/-- `advance_single`: step the iterator forward by one row. -/
def TupleIt.advanceSingle (it : TupleIt) : TupleIt :=
  ⟨it.rows.tail⟩

/-- `advance_past`: consume the run of rows that duplicate the current row and
return how many were consumed (the Rust call returns the skipped
multiplicity).  On an exhausted iterator (never the case on the paths that
call it) the count is 1 so that it is neutral in multiplicity products. -/
def TupleIt.advancePast (it : TupleIt) : TupleIt × Nat :=
  match it.rows with
  | [] => (⟨[]⟩, 1)
  | r :: rest =>
    let run := rest.takeWhile (fun r2 => r2 = r)
    (⟨rest.drop run.length⟩, run.length + 1)

/-- `advance_until_first_unbound_is`: advance until the first-unbound value is
at least the target, returning the comparison of the landing value against the
target (`none` when the iterator is exhausted). -/
def TupleIt.advanceUntilFirstUnboundIs (it : TupleIt) (v : Nat) : TupleIt × Option Ordering :=
  let rest := it.rows.dropWhile (fun r => r.key < v)
  (⟨rest⟩, rest.head?.map (fun r => compare r.key v))

/-! ## C1: `IntersectionExecutor::may_activate_cartesian` -/

/-- Number of iterators currently peeking the given first-unbound value. -/
def countMatching (iterators : List TupleIt) (v : Nat) : Nat :=
  iterators.countP (fun it => it.peekFirstUnbound == some v)

/-- `IntersectionExecutor::may_activate_cartesian`, the decision whether to
activate the cartesian sub-executor: with a single iterator it never
activates; otherwise it scans the iterators and activates as soon as one of
them still peeks a first-unbound value equal to the recorded intersection
value (`for iter in ... { if peek == intersection_value { cartesian = true; break } }`). -/
def mayActivateCartesian (iterators : List TupleIt) (intersectionValue : Nat) : Bool :=
  if iterators.length = 1 then false
  else iterators.any (fun it => it.peekFirstUnbound == some intersectionValue)

/-! ## C7: `advance_intersection_iterators_with_multiplicity` -/

/-- The slice of `IntersectionExecutor` state touched by the
found-intersection path of `compute_next_row`. -/
structure EmitState where
  iterators : List TupleIt
  intersectionMultiplicity : Nat
  deriving DecidableEq, Repr

/-- The multiplicity effect of `record_intersection`: it rebuilds the
intersection row and finishes with `self.intersection_multiplicity = 1`. -/
def recordIntersectionMult (s : EmitState) : EmitState :=
  { s with intersectionMultiplicity := 1 }

/-- `IntersectionExecutor::advance_intersection_iterators_with_multiplicity`:
starting from `multiplicity = 1`, advance every open iterator past the current
key with `advance_past` and multiply the returned duplicate counts. -/
def advanceIntersectionIteratorsWithMultiplicity (s : EmitState) : EmitState :=
  let folded := s.iterators.foldl
    (fun (acc : List TupleIt × Nat) it =>
      let stepped := it.advancePast
      (acc.1 ++ [stepped.1], acc.2 * stepped.2))
    ([], 1)
  { iterators := folded.1, intersectionMultiplicity := folded.2 }

/-- The found-intersection path of `compute_next_row`:
`record_intersection()` then
`advance_intersection_iterators_with_multiplicity()`. -/
def intersectionFoundStep (s : EmitState) : EmitState :=
  advanceIntersectionIteratorsWithMultiplicity (recordIntersectionMult s)

/-- The multiplicity `write_next_row_into` stamps on the emitted row when the
cartesian iterator is not active (`row.set_multiplicity(self.intersection_multiplicity)`). -/
def writeNextRowMultiplicity (s : EmitState) : Nat :=
  s.intersectionMultiplicity

/-! ## C5 / C6: the cartesian iterator and `reset` -/

/-- An instruction executor, as used by the cartesian iterator: `get_iterator`
builds a fresh sorted iterator from an input row.  The `tag` is bookkeeping of
the model only: it lets theorems state which executor produced an iterator. -/
structure Exec where
  tag : Nat
  gen : List (Option Nat) → TupleIt

/-- Placeholder executor for out-of-bounds indexing (the Rust code would
panic; the model's theorems only evaluate in-bounds accesses). -/
def defaultExec : Exec := ⟨0, fun _ => ⟨[]⟩⟩

/-- `CartesianIterator` state (`immediate_executor.rs`): activation flag,
recorded intersection value / input row / intersection row / multiplicity, the
indices of iterators with a cartesian contribution, and the lazily stored
per-instruction iterator slots. -/
structure CartesianState where
  isActive : Bool
  intersectionValue : Nat
  inputRow : List (Option Nat)
  intersectionSource : List (Option Nat)
  intersectionMultiplicity : Nat
  cartesianExecutorIndices : List Nat
  iterators : List (Option TupleIt)
  deriving DecidableEq, Repr

/-- `CartesianIterator::new`. -/
def CartesianState.new (width iteratorExecutorCount : Nat) : CartesianState :=
  { isActive := false
    intersectionValue := 0
    inputRow := List.replicate width none
    intersectionSource := List.replicate width none
    intersectionMultiplicity := 1
    cartesianExecutorIndices := []
    iterators := List.replicate iteratorExecutorCount none }

/-- `CartesianIterator::clear`: drop every stored iterator slot (the
activation flag is not touched). -/
def CartesianState.clear (c : CartesianState) : CartesianState :=
  { c with iterators := c.iterators.map (fun _ => none) }

/-- `CartesianIterator::reopen_iterator`: rebuild the iterator from the
instruction executor on the stored input row, then seek it to the recorded
intersection value. -/
def reopenIterator (e : Exec) (value : Nat) (inputRow : List (Option Nat)) : TupleIt :=
  ((e.gen inputRow).advanceUntilFirstUnboundIs value).1

/-- One slot decision of `CartesianIterator::activate`: reuse the preexisting
slot iterator if it can still reach the intersection value, otherwise reopen. -/
def activateSlot (e : Exec) (value : Nat) (inputRow : List (Option Nat))
    (preexisting : Option TupleIt) : TupleIt :=
  match preexisting with
  | none => reopenIterator e value inputRow
  | some it =>
    match it.peekFirstUnbound with
    | none => reopenIterator e value inputRow
    | some w =>
      if w < value then (it.advanceUntilFirstUnboundIs value).1
      else if w = value then it
      else reopenIterator e value inputRow

/-- The indexed loop of `CartesianIterator::activate`: for every intersection
iterator still peeking the intersection value, record its index and open its
slot. -/
def activateLoop (execs : List Exec) (value : Nat) (inputRow : List (Option Nat)) :
    List TupleIt → Nat → List Nat × List (Option TupleIt) → List Nat × List (Option TupleIt)
  | [], _, acc => acc
  | it :: rest, index, acc =>
    let acc' :=
      if it.peekFirstUnbound == some value then
        let e := execs.getD index defaultExec
        let slot := activateSlot e value inputRow ((acc.2.getD index none))
        (acc.1 ++ [index], acc.2.set index (some slot))
      else acc
    activateLoop execs value inputRow rest (index + 1) acc'

/-- `CartesianIterator::activate`. -/
def CartesianState.activate (c : CartesianState) (execs : List Exec)
    (sourceIntersectionValue : Nat) (inputRow sourceIntersection : List (Option Nat))
    (sourceMultiplicity : Nat) (intersectionIterators : List TupleIt) : CartesianState :=
  let looped := activateLoop execs sourceIntersectionValue inputRow
      intersectionIterators 0 ([], c.iterators)
  { c with
      isActive := true
      inputRow := (inputRow ++ c.inputRow.drop inputRow.length)
      intersectionSource := sourceIntersection
      intersectionValue := sourceIntersectionValue
      intersectionMultiplicity := sourceMultiplicity
      cartesianExecutorIndices := looped.1
      iterators := looped.2 }

/-- The odometer loop of `CartesianIterator::find_next`, recursing on the
executor-index position.  Mirrors the source exactly: the iterator at
`indices[executor_index]` is advanced; if its next row no longer matches the
intersection value then either (leftmost) the cartesian deactivates, or the
slot is rebuilt with `reopen_iterator(&executors[executor_index])` — note the
index used to select the executor — and advancement carries to the next
position to the left.  Returns (new slots, is_active, found). -/
def findNextLoop (execs : List Exec) (indices : List Nat) (value : Nat)
    (inputRow : List (Option Nat)) :
    Nat → List (Option TupleIt) → List (Option TupleIt) × Bool × Bool
  | 0, slots =>
    let ii := indices.getD 0 0
    let it := ((slots.getD ii none).getD ⟨[]⟩).advanceSingle
    if it.peekFirstUnbound == some value then (slots.set ii (some it), true, true)
    else (slots.set ii (some it), false, false)
  | ei + 1, slots =>
    let ii := indices.getD (ei + 1) 0
    let it := ((slots.getD ii none).getD ⟨[]⟩).advanceSingle
    if it.peekFirstUnbound == some value then (slots.set ii (some it), true, true)
    else
      let reopened := reopenIterator (execs.getD (ei + 1) defaultExec) value inputRow
      findNextLoop execs indices value inputRow ei (slots.set ii (some reopened))

/-- `CartesianIterator::find_next`. -/
def CartesianState.findNext (c : CartesianState) (execs : List Exec) :
    CartesianState × Bool :=
  let res := findNextLoop execs c.cartesianExecutorIndices c.intersectionValue c.inputRow
      (c.cartesianExecutorIndices.length - 1) c.iterators
  ({ c with iterators := res.1, isActive := res.2.1 }, res.2.2)

/-- `IntersectionExecutor` state (the fields `reset` and the claims touch). -/
structure IntersectionExecState where
  iterators : List TupleIt
  cartesianIterator : CartesianState
  input : Option (List (List (Option Nat)))
  intersectionValue : Option Nat
  intersectionMultiplicity : Nat
  deriving DecidableEq, Repr

/-- `IntersectionExecutor::reset`: `self.input = None; self.iterators.clear();`
(and nothing else). -/
def IntersectionExecState.reset (s : IntersectionExecState) : IntersectionExecState :=
  { s with input := none, iterators := [] }

/-! ## C8: `ImmediateExecutor::new_unsorted_join` -/

/-- The features of `error::UnimplementedFeature` relevant here. -/
inductive UnimplementedFeature where
  | unsortedJoin
  | lists
  | optionals
  deriving DecidableEq, Repr

/-- `ConceptReadError`, restricted to the variant this path produces. -/
inductive ConceptReadError where
  | unimplementedFunctionality (functionality : UnimplementedFeature)
  deriving DecidableEq, Repr

/-- `UnsortedJoinStep` payload (field contents are opaque to this path). -/
structure UnsortedJoinStep where
  iterateInstruction : Nat
  checkInstructions : List Nat
  outputWidth : Nat
  deriving DecidableEq, Repr

/-- The `ImmediateExecutor` variants. -/
inductive ImmediateExecutorKind where
  | sortedJoin
  | unsortedJoinExecutor (step : UnsortedJoinStep)
  | check
  | assignment
  deriving DecidableEq, Repr

/-- `ImmediateExecutor::new_unsorted_join`: the first statement is
`return Err(ConceptReadError::UnimplementedFunctionality { functionality: UnimplementedFeature::UnsortedJoin })`;
the constructor call below it is dead code and is therefore absent here. -/
def newUnsortedJoin (_step : UnsortedJoinStep) :
    Except ConceptReadError ImmediateExecutorKind :=
  Except.error (ConceptReadError.unimplementedFunctionality UnimplementedFeature.unsortedJoin)

/-! ## C10: batch production never yields an empty batch -/

/-- A row flowing between steps: positional values plus a multiplicity. -/
structure ERow where
  vals : List (Option Nat)
  mult : Nat
  deriving DecidableEq, Repr

/-- The body of `IntersectionExecutor::may_compute_next_batch` after the first
answer is confirmed: keep appending rows while the batch is not full and
`compute_next_row` keeps succeeding.  `next` is the `compute_next_row` call
(state transition plus success flag), `write` the `write_next_row_into` call. -/
def fillBatch {σ α : Type} (next : σ → σ × Bool) (write : σ → α) :
    Nat → σ → List α → σ × List α
  | 0, s, acc => (s, acc)
  | cap + 1, s, acc =>
    let stepped := next s
    if stepped.2 then fillBatch next write cap stepped.1 (acc ++ [write stepped.1])
    else (stepped.1, acc)

/-- `IntersectionExecutor::may_compute_next_batch`: no batch is allocated
until one answer is confirmed; on success the batch starts with that answer. -/
def mayComputeNextBatch {σ α : Type} (next : σ → σ × Bool) (write : σ → α)
    (capacity : Nat) (s : σ) : σ × Option (List α) :=
  let first := next s
  if first.2 then
    let filled := fillBatch next write (capacity - 1) first.1 [write first.1]
    (filled.1, some filled.2)
  else (first.1, none)

/-- The output row built by the append closure of `AssignExecutor::batch_continue`:
copy the selected positions of the input row, then write the expression value
into the output position. -/
def buildAssignRow (selected : List Nat) (outputPos : Option Nat) (width : Nat)
    (r : ERow) (v : Nat) : ERow :=
  let base : List (Option Nat) := (List.range width).map
    (fun i => if i ∈ selected ∧ i < r.vals.length then r.vals.getD i none else none)
  { vals := match outputPos with
      | some p => base.set p (some v)
      | none => base
    mult := r.mult }

/-- The row loop of `AssignExecutor::batch_continue`: while the output batch
is not full, take the next input row, evaluate the expression (an error aborts
the call), and append the produced row. -/
def assignLoop (evalExpr : ERow → Except Nat Nat) (selected : List Nat)
    (outputPos : Option Nat) (width : Nat) :
    List ERow → Nat → List ERow → Except Nat (List ERow)
  | _, 0, out => Except.ok out
  | [], _ + 1, out => Except.ok out
  | r :: rest, cap + 1, out =>
    match evalExpr r with
    | Except.error e => Except.error e
    | Except.ok v => assignLoop evalExpr selected outputPos width rest cap
        (out ++ [buildAssignRow selected outputPos width r v])

/-- `AssignExecutor::batch_continue`: `None` when no input is prepared or when
the produced output batch is empty. -/
def assignBatchContinue (evalExpr : ERow → Except Nat Nat) (selected : List Nat)
    (outputPos : Option Nat) (width capacity : Nat) (prepared : Option (List ERow)) :
    Except Nat (Option (List ERow)) :=
  match prepared with
  | none => Except.ok none
  | some rows =>
    match assignLoop evalExpr selected outputPos width rows capacity [] with
    | Except.error e => Except.error e
    | Except.ok out => if out.isEmpty then Except.ok none else Except.ok (some out)

/-- The output row built by `CheckExecutor::batch_continue`
(`row.copy_mapped(input_row, selected)`). -/
def copyMappedRow (selected : List Nat) (width : Nat) (r : ERow) : ERow :=
  { vals := (List.range width).map
      (fun i => if i ∈ selected then r.vals.getD i none else none)
    mult := r.mult }

/-- The row loop of `CheckExecutor::batch_continue`: run the checker on every
input row (an error aborts the call) and append the rows that pass. -/
def checkLoop (check : ERow → Except Nat Bool) (selected : List Nat) (width : Nat) :
    List ERow → List ERow → Except Nat (List ERow)
  | [], out => Except.ok out
  | r :: rest, out =>
    match check r with
    | Except.error e => Except.error e
    | Except.ok true => checkLoop check selected width rest (out ++ [copyMappedRow selected width r])
    | Except.ok false => checkLoop check selected width rest out

/-- `CheckExecutor::batch_continue`: `None` when no input is prepared or when
the filtered output batch is empty. -/
def checkBatchContinue (check : ERow → Except Nat Bool) (selected : List Nat)
    (width : Nat) (input : Option (List ERow)) : Except Nat (Option (List ERow)) :=
  match input with
  | none => Except.ok none
  | some rows =>
    match checkLoop check selected width rows [] with
    | Except.error e => Except.error e
    | Except.ok out => if out.isEmpty then Except.ok none else Except.ok (some out)

/-! ## C9: `Disjunction::variable_dependency` -/

/-- Modelled from the spec: `VariableBindingMode` (`ir/pattern/mod.rs`) is not
among the published sources; only its interface (`is_producing`,
`set_referencing`, `|=`) appears in `disjunction.rs`.  Following the spec's
vocabulary for disjunction planning (variables are either *produced* by a
branch or merely *referenced*), it is modelled as a two-kind mode whose merge
(`BitOrAssign`) keeps `producing` exactly when both sides produce. -/
inductive BindingKind where
  | producing
  | referencing
  deriving DecidableEq, Repr

/-- `VariableBindingMode::is_producing`. -/
def BindingKind.isProducing : BindingKind → Bool
  | BindingKind.producing => true
  | BindingKind.referencing => false

/-- Modelled from the spec: `VariableBindingMode`'s `BitOrAssign` merge of the
modes of one variable across two branches. -/
def BindingKind.merge (a b : BindingKind) : BindingKind :=
  if a = BindingKind.producing ∧ b = BindingKind.producing then BindingKind.producing
  else BindingKind.referencing

/-- A branch's variable-dependency map (`HashMap<Variable, VariableBindingMode>`),
as an association list with unique keys.  Variables are dense naturals. -/
abbrev DepMap := List (Nat × BindingKind)

/-- Association-list lookup (the `HashMap` access of the source). -/
def lookupDep : DepMap → Nat → Option BindingKind
  | [], _ => none
  | (k, d) :: rest, v => if k = v then some d else lookupDep rest v

/-- A dependency map has each variable at most once (a `HashMap` invariant). -/
def DepNoDupKeys (m : DepMap) : Prop :=
  (m.map (fun e => e.1)).Nodup

instance (m : DepMap) : Decidable (DepNoDupKeys m) := by
  unfold DepNoDupKeys
  infer_instance

/-- The first loop of `Disjunction::variable_dependency`'s branch merge: any
accumulated variable missing from the branch that is currently `producing` is
downgraded with `set_referencing`. -/
def downgradeMissing (deps branch : DepMap) : DepMap :=
  deps.map (fun e =>
    if lookupDep branch e.1 = none ∧ e.2.isProducing then (e.1, BindingKind.referencing)
    else e)

/-- The second loop body of `Disjunction::variable_dependency`'s branch merge:
an occupied entry is combined with `|=`; a vacant entry is inserted, with a
`producing` mode downgraded to referencing first. -/
def insertBranchEntry (deps : DepMap) (entry : Nat × BindingKind) : DepMap :=
  match lookupDep deps entry.1 with
  | some _ => deps.map (fun e => if e.1 = entry.1 then (e.1, e.2.merge entry.2) else e)
  | none =>
    deps ++ [(entry.1, if entry.2.isProducing then BindingKind.referencing else entry.2)]

/-- One branch merge of `Disjunction::variable_dependency`. -/
def mergeBranch (deps branch : DepMap) : DepMap :=
  branch.foldl insertBranchEntry (downgradeMissing deps branch)

/-- `Disjunction::variable_dependency`: empty for no branches, otherwise the
first branch's map merged with each later branch's map in turn. -/
def variableDependency (branches : List DepMap) : DepMap :=
  match branches with
  | [] => []
  | b0 :: rest => rest.foldl mergeBranch b0

/-- The downgrade applied when a mode meets a branch that does not bind the
variable (or when a producing mode is first inserted from a later branch). -/
def downgradeNew (m : BindingKind) : BindingKind :=
  if m.isProducing then BindingKind.referencing else m

/-- The per-variable effect of one branch merge, at the level of lookups:
both present combine with `|=`; present only on one side is downgraded. -/
def stepLookup : Option BindingKind → Option BindingKind → Option BindingKind
  | some m, some md => some (m.merge md)
  | some m, none => some (downgradeNew m)
  | none, some md => some (downgradeNew md)
  | none, none => none

/-! ## The planner: cost model, pattern graph, partial plans, beam search -/

/-- An exact rational scalar modelling the planner's `f64` values: an integer
numerator over a positive denominator stored as `denominator - 1`, so the
denominator is positive by construction.  No normalization is performed; the
order and arithmetic are the usual rational ones via cross multiplication.
(All constants appearing in `plan.rs` — 1.0, 0.05 — are exactly
representable, and the claims under scrutiny involve no float rounding.) -/
structure Frac where
  num : Int
  dm1 : Nat
  deriving DecidableEq, Repr

/-- The (positive) denominator. -/
def Frac.den (x : Frac) : Int := (x.dm1 : Int) + 1

/-- Embed a natural number. -/
def Frac.ofNat (n : Nat) : Frac := ⟨n, 0⟩

instance (n : Nat) : OfNat Frac n := ⟨Frac.ofNat n⟩

/-- Rational addition on representations. -/
def Frac.add (x y : Frac) : Frac :=
  ⟨x.num * y.den + y.num * x.den, x.dm1 * y.dm1 + x.dm1 + y.dm1⟩

/-- Rational multiplication on representations. -/
def Frac.mul (x y : Frac) : Frac :=
  ⟨x.num * y.num, x.dm1 * y.dm1 + x.dm1 + y.dm1⟩

/-- Rational negation. -/
def Frac.neg (x : Frac) : Frac := ⟨-x.num, x.dm1⟩

/-- Rational subtraction. -/
def Frac.sub (x y : Frac) : Frac := x.add y.neg

/-- Rational inverse (zero maps to zero, as in Mathlib's convention; the
planner never divides by zero on the paths under scrutiny). -/
def Frac.inv (x : Frac) : Frac :=
  if 0 < x.num then ⟨x.den, x.num.toNat - 1⟩
  else if x.num < 0 then ⟨-x.den, (-x.num).toNat - 1⟩
  else ⟨0, 0⟩

/-- Rational division. -/
def Frac.div (x y : Frac) : Frac := x.mul y.inv

/-- The rational order, by cross multiplication (denominators are positive). -/
def Frac.le (x y : Frac) : Prop := x.num * y.den ≤ y.num * x.den

/-- The strict rational order. -/
def Frac.lt (x y : Frac) : Prop := x.num * y.den < y.num * x.den

instance : Add Frac := ⟨Frac.add⟩

instance : Mul Frac := ⟨Frac.mul⟩

instance : Neg Frac := ⟨Frac.neg⟩

instance : Sub Frac := ⟨Frac.sub⟩

instance : Div Frac := ⟨Frac.div⟩

instance : LE Frac := ⟨Frac.le⟩

instance : LT Frac := ⟨Frac.lt⟩

instance : DecidableRel Frac.le := fun x y => by
  unfold Frac.le; infer_instance

instance : DecidableRel Frac.lt := fun x y => by
  unfold Frac.lt; infer_instance

instance (x y : Frac) : Decidable (x ≤ y) :=
  inferInstanceAs (Decidable (Frac.le x y))

instance (x y : Frac) : Decidable (x < y) :=
  inferInstanceAs (Decidable (Frac.lt x y))

/-- Natural powers. -/
def Frac.pow (x : Frac) : Nat → Frac
  | 0 => 1
  | n + 1 => x.mul (Frac.pow x n)

instance : HPow Frac Nat Frac := ⟨Frac.pow⟩

instance : Max Frac := ⟨fun x y => if x ≤ y then y else x⟩

/-- Denominators are positive by construction. -/
theorem Frac.den_pos (x : Frac) : 0 < x.den := by
  unfold Frac.den
  omega

/-- The cross-multiplication order is reflexive. -/
theorem Frac.le_refl (x : Frac) : x ≤ x := by
  show Frac.le x x
  unfold Frac.le
  exact Int.le_refl _

/-- The cross-multiplication order is transitive. -/
theorem Frac.le_trans {a b c : Frac} (h1 : a ≤ b) (h2 : b ≤ c) : a ≤ c := by
  have h1' : a.num * b.den ≤ b.num * a.den := h1
  have h2' : b.num * c.den ≤ c.num * b.den := h2
  show a.num * c.den ≤ c.num * a.den
  nlinarith [Frac.den_pos a, Frac.den_pos b, Frac.den_pos c]

/-- Strict order implies order. -/
theorem Frac.le_of_lt {a b : Frac} (h : a < b) : a ≤ b :=
  Int.le_of_lt h

/-- Totality of the order. -/
theorem Frac.le_of_not_lt {a b : Frac} (h : ¬ a < b) : b ≤ a :=
  Int.not_lt.mp h

/-- `Cost { cost, io_ratio }` (`planner/vertex`): work units and output/input
fan-out. -/
structure Cost where
  cost : Frac
  ioRate : Frac
  deriving DecidableEq, Repr

/-- `Cost::NOOP = { 0, 1 }` (spec section 4.2). -/
def Cost.noop : Cost := ⟨0, 1⟩

/-- `Cost::INFINITY`.  Modelled from the spec: `f64::INFINITY` has no rational
counterpart; it is used only as the sentinel heuristic of the initial partial
plan, so any bound exceeding all finite costs arising in a search serves. -/
def infinityCost : Cost := ⟨1000000000, 1⟩

/-- `Cost::TRIVIAL_COST`.  Modelled from the spec: "a small constant" (spec
section 4.2); the vertex module carrying its value is not among the published
sources. -/
def trivialCostConst : Frac := ⟨1, 99⟩

/-- `Cost::chain` — sequential composition (spec section 4.2):
`{ a.cost + a.io_ratio * b.cost, a.io_ratio * b.io_ratio }`. -/
def Cost.chain (a b : Cost) : Cost :=
  ⟨a.cost + a.ioRate * b.cost, a.ioRate * b.ioRate⟩

/-- `Cost::join` — k-way merge composition (spec section 4.2):
`a.cost + b.cost` with the fan-out clamped to
`max(a.io_ratio * b.io_ratio / key_size, 1)`. -/
def Cost.join (a b : Cost) (keySize : Frac) : Cost :=
  ⟨a.cost + b.cost, max (a.ioRate * b.ioRate / keySize) 1⟩

/-- `Cost::is_trivial`.  Modelled from the spec: a trivial extension "costs
`TRIVIAL_COST`" (glossary), so a cost is trivial when its work does not exceed
that constant. -/
def Cost.isTrivial (c : Cost) : Bool :=
  c.cost ≤ trivialCostConst

/-- `MAX_BEAM_WIDTH` (`plan.rs`). -/
def maxBeamWidth : Nat := 96

/-- `AVERAGE_QUERY_OUTPUT_SIZE` (`plan.rs`). -/
def averageQueryOutputSize : Frac := 1

/-- `AVERAGE_STEP_COST` (`plan.rs`). -/
def averageStepCost : Frac := 1

/-- `VARIABLE_PRODUCTION_ADVANTAGE = 0.05` (`plan.rs`). -/
def variableProductionAdvantage : Frac := ⟨1, 19⟩

/-- `VertexId`: variable vertices and pattern vertices with dense ids. -/
inductive PlanVertexId where
  | variable (v : Nat)
  | pattern (p : Nat)
  deriving DecidableEq, Repr

/-- `CostMetaData`: the chosen traversal direction of a constraint, if any. -/
inductive Direction where
  | canonical
  | reverse
  deriving DecidableEq, Repr

/-- `CostMetaData`. -/
inductive CostMetaData where
  | direction (d : Direction)
  | mdNone
  deriving DecidableEq, Repr

/-- The pattern graph together with the per-vertex planner interface of spec
section 4.2 (`cost_and_metadata`, validity, joinability, triviality).  The
vertex planners themselves (`planner/vertex`) are not among the published
sources; they enter as oracle fields, which `plan.rs` calls exactly as below. -/
structure PlanGraph where
  patterns : List Nat
  inputVars : List Nat
  patternVars : Nat → List Nat
  isConstraint : Nat → Bool
  canBeTrivial : Nat → Bool
  isValid : Nat → List PlanVertexId → Bool
  canJoinOn : Nat → Nat → Bool
  joinFrom : Nat → Direction → List Nat → List Nat → Option Nat
  directionFromJoinVar : Nat → Nat → List Nat → List Nat → Option Direction
  costAndMetadata : Nat → List PlanVertexId → Option Direction → Cost × CostMetaData
  restrictedOutputSize : Nat → List PlanVertexId → Frac

/-- `PartialCostPlan` (`plan.rs`).  Hash sets are lists with set semantics;
wherever the source iterates one of them, the enumeration function of an
`HOrder` (below) is applied, reflecting that `HashSet` iteration order is
arbitrary. -/
structure PartialCostPlan where
  vertexOrdering : List PlanVertexId
  cumulativeCost : Cost
  ongoingStep : List Nat
  ongoingStepStash : List Nat
  ongoingStepCost : Cost
  ongoingStepProducedVars : List Nat
  ongoingStepStashProducedVars : List Nat
  ongoingStepJoinVar : Option Nat
  allProducedVars : List Nat
  remainingPatterns : List Nat
  patternMetadata : List (Nat × CostMetaData)
  heuristic : Cost
  deriving DecidableEq, Repr

/-- `StepExtension` (`plan.rs`). -/
structure StepExtension where
  patternId : Nat
  patternMetadata : CostMetaData
  stepCost : Cost
  stepJoinVar : Option Nat
  heuristic : Cost
  deriving DecidableEq, Repr

/-- `CompleteCostPlan` (`plan.rs`). -/
structure CompleteCostPlan where
  vertexOrdering : List PlanVertexId
  patternMetadata : List (Nat × CostMetaData)
  cumulativeCost : Cost
  deriving DecidableEq, Repr

/-- The hash-set iteration orders a run of the planner happens to see:
`ordPat` enumerates a set of pattern ids, `ordVar` a set of variable ids. -/
structure HOrder where
  ordPat : List Nat → List Nat
  ordVar : List Nat → List Nat

/-- An `HOrder` is lawful when it enumerates exactly the elements of the set
it is given (in some order). -/
def LawfulHOrder (ho : HOrder) : Prop :=
  (∀ l : List Nat, (ho.ordPat l).Perm l) ∧ (∀ l : List Nat, (ho.ordVar l).Perm l)

/-- The identity iteration order. -/
def hoId : HOrder := ⟨fun l => l, fun l => l⟩

/-- The reversed iteration order (equally legitimate for a hash set). -/
def hoRev : HOrder := ⟨fun l => l.reverse, fun l => l.reverse⟩

/-- `HashSet::insert` on a list with set semantics. -/
def insertIfAbsent (l : List Nat) (x : Nat) : List Nat :=
  if x ∈ l then l else l ++ [x]

/-- `HashSet::extend`. -/
def extendSet (l : List Nat) (xs : List Nat) : List Nat :=
  xs.foldl insertIfAbsent l

/-- `HashMap::get` on the pattern-metadata map. -/
def lookupMeta : List (Nat × CostMetaData) → Nat → Option CostMetaData
  | [], _ => none
  | (k, m) :: rest, p => if k = p then some m else lookupMeta rest p

/-- `HashMap::insert` on the pattern-metadata map. -/
def insertMeta (m : List (Nat × CostMetaData)) (k : Nat) (v : CostMetaData) :
    List (Nat × CostMetaData) :=
  if (lookupMeta m k).isSome then m.map (fun e => if e.1 = k then (e.1, v) else e)
  else m ++ [(k, v)]

/-- `Itertools::exactly_one().ok()`. -/
def exactlyOne : List Nat → Option Nat
  | [x] => some x
  | _ => none

/-- `PartialCostPlan::new`: the initial plan orders exactly the input
variables, which are also the only produced variables; every pattern remains. -/
def initPlan (g : PlanGraph) : PartialCostPlan :=
  { vertexOrdering := g.inputVars.map PlanVertexId.variable
    cumulativeCost := Cost.noop
    ongoingStep := []
    ongoingStepStash := []
    ongoingStepCost := Cost.noop
    ongoingStepProducedVars := []
    ongoingStepStashProducedVars := []
    ongoingStepJoinVar := none
    allProducedVars := g.inputVars
    remainingPatterns := g.patterns
    patternMetadata := []
    heuristic := infinityCost }

/-- The `all_available_vars` vector of `extensions_iter`: the committed
ordering followed by the ongoing step's and the stash's produced variables. -/
def availableVars (ho : HOrder) (plan : PartialCostPlan) : List PlanVertexId :=
  plan.vertexOrdering ++
    (ho.ordVar plan.ongoingStepProducedVars ++ ho.ordVar plan.ongoingStepStashProducedVars).map
      PlanVertexId.variable

/-- `PartialCostPlan::determine_joinability`: the representative previous
pattern is whichever element the ongoing step's hash set yields first; both it
and the candidate must be constraints; the candidate join variable is the
unique produced variable of the candidate it `can_join_on`; and it must match
either the previous constraint's preferred join variable (when the step has no
join variable yet) or the step's established join variable. -/
def determineJoinability (g : PlanGraph) (ho : HOrder) (plan : PartialCostPlan)
    (pattern : Nat) : Option Nat :=
  match (ho.ordPat plan.ongoingStep).head? with
  | none => none
  | some prevPattern =>
    if g.isConstraint prevPattern = false then none
    else if g.isConstraint pattern = false then none
    else
      match exactlyOne ((g.patternVars pattern).filter
          (fun v => decide (v ∈ plan.ongoingStepProducedVars) && g.canJoinOn pattern v)) with
      | none => none
      | some candidate =>
        match lookupMeta plan.patternMetadata prevPattern with
        | some (CostMetaData.direction prevDir) =>
          if (plan.ongoingStepJoinVar = none ∧
                some candidate = g.joinFrom prevPattern prevDir
                  plan.ongoingStepProducedVars plan.allProducedVars) ∨
              plan.ongoingStepJoinVar = some candidate
          then some candidate else none
        | _ => none

/-- `PartialCostPlan::compute_added_cost`: a constraint joined on a variable
costs `ongoing_step_cost.join(constraint_cost, total_join_size)` with the
direction forced by the join variable; otherwise the vertex's own
`cost_and_metadata` on the given input variables. -/
def computeAddedCost (g : PlanGraph) (plan : PartialCostPlan) (pattern : Nat)
    (inputVars : List PlanVertexId) (joinVar : Option Nat) : Cost × CostMetaData :=
  if g.isConstraint pattern then
    match joinVar with
    | some jv =>
      let totalJoinSize := g.restrictedOutputSize jv plan.vertexOrdering
      let fixedDir := g.directionFromJoinVar pattern jv
          plan.ongoingStepProducedVars plan.allProducedVars
      let costMd := g.costAndMetadata pattern inputVars fixedDir
      (plan.ongoingStepCost.join costMd.1 totalJoinSize, costMd.2)
    | none => g.costAndMetadata pattern inputVars none
  else g.costAndMetadata pattern inputVars none

/-- `PartialCostPlan::heuristic_plan_completion_cost`: `NOOP` when exactly one
pattern remains; otherwise
`AVERAGE_STEP_COST * remaining * (1 - VARIABLE_PRODUCTION_ADVANTAGE)^produced`
where `produced` adds the sizes of `all_produced_vars` and
`ongoing_step_produced_vars` and the candidate's variables lying in neither. -/
def heuristicPlanCompletionCost (g : PlanGraph) (plan : PartialCostPlan)
    (pattern : Nat) : Cost :=
  let numRemaining := plan.remainingPatterns.length
  if numRemaining = 1 then Cost.noop
  else
    let numProducedVars := plan.allProducedVars.length + plan.ongoingStepProducedVars.length +
      ((g.patternVars pattern).filter (fun v =>
        decide (v ∉ plan.ongoingStepProducedVars) && decide (v ∉ plan.allProducedVars))).length
    ⟨averageStepCost * Frac.ofNat numRemaining *
        (1 - variableProductionAdvantage) ^ numProducedVars,
      averageQueryOutputSize⟩

/-- One extension record of `extensions_iter` for a candidate `(pattern, join_var)`
pair: the added cost (join variants see only the committed ordering as inputs),
the cost before the extension (a non-join extension first closes the ongoing
step), and the chained completion heuristic. -/
def mkExtension (g : PlanGraph) (ho : HOrder) (plan : PartialCostPlan)
    (pr : Nat × Option Nat) : StepExtension :=
  let costMd :=
    match pr.2 with
    | none => computeAddedCost g plan pr.1 (availableVars ho plan) none
    | some _ => computeAddedCost g plan pr.1 plan.vertexOrdering pr.2
  let costBefore :=
    if pr.2 = none then plan.cumulativeCost.chain plan.ongoingStepCost
    else plan.cumulativeCost
  let costIncl := costBefore.chain costMd.1
  { patternId := pr.1
    patternMetadata := costMd.2
    stepCost := costMd.1
    stepJoinVar := pr.2
    heuristic := costIncl.chain (heuristicPlanCompletionCost g plan pr.1) }

/-- The candidate `(pattern, join_var)` pairs of `extensions_iter`: every
remaining pattern whose required inputs are available, with a no-join variant
always and a join variant when `determine_joinability` succeeds. -/
def candidatePairs (g : PlanGraph) (ho : HOrder) (plan : PartialCostPlan) :
    List (Nat × Option Nat) :=
  let avail := availableVars ho plan
  ((ho.ordPat plan.remainingPatterns).filter (fun p => g.isValid p avail)).flatMap
    (fun p =>
      match determineJoinability g ho plan p with
      | none => [(p, none)]
      | some v => [(p, none), (p, some v)])

/-- `PartialCostPlan::extensions_iter`. -/
def extensionsList (g : PlanGraph) (ho : HOrder) (plan : PartialCostPlan) :
    List StepExtension :=
  (candidatePairs g ho plan).map (mkExtension g ho plan)

/-- `StepExtension::is_trivial`: the vertex can be trivial and the step cost is. -/
def stepExtIsTrivial (g : PlanGraph) (e : StepExtension) : Bool :=
  g.canBeTrivial e.patternId && e.stepCost.isTrivial

/-- The extension-collection loop of `beam_search_plan`: extensions are
accumulated in encounter order, but the first trivial extension clears the
heap and stops the loop, leaving only itself. -/
def collectTrivialBreak (g : PlanGraph) (l : List StepExtension) : List StepExtension :=
  match l.find? (stepExtIsTrivial g) with
  | some e => [e]
  | none => l

/-- The drain order of the extension heap: ascending heuristic cost with ties
broken by pattern id (`impl Ord for StepExtension`). -/
def extLE (a b : StepExtension) : Prop :=
  a.heuristic.cost < b.heuristic.cost ∨
    (a.heuristic.cost = b.heuristic.cost ∧ a.patternId ≤ b.patternId)

instance : DecidableRel extLE := fun a b => by
  unfold extLE; infer_instance

/-- `PartialCostPlan::add_to_stash`: stash the pattern, remove it from the
remaining set, record empty metadata and mark its variables as produced by the
stash.  All cost fields, including the heuristic, are untouched. -/
def addToStash (g : PlanGraph) (plan : PartialCostPlan) (pattern : Nat) :
    PartialCostPlan :=
  { plan with
      ongoingStepStash := plan.ongoingStepStash ++ [pattern]
      remainingPatterns := plan.remainingPatterns.erase pattern
      patternMetadata := insertMeta plan.patternMetadata pattern CostMetaData.mdNone
      ongoingStepStashProducedVars :=
        extendSet plan.ongoingStepStashProducedVars (g.patternVars pattern) }

/-- `PartialCostPlan::finalize_current_step`: the ongoing step's patterns (in
hash order), then the join variable first and the remaining newly produced
variables (in hash order), then each stashed pattern followed by its not yet
produced variables.  Also returns the variables first produced by the stash. -/
def finalizeStash (g : PlanGraph) (plan : PartialCostPlan) :
    List Nat → List PlanVertexId × List Nat → List PlanVertexId × List Nat
  | [], acc => acc
  | p :: rest, acc =>
    let cur := acc.1 ++ [PlanVertexId.pattern p]
    let folded := (g.patternVars p).foldl
      (fun (a : List PlanVertexId × List Nat) v =>
        if v ∉ plan.allProducedVars ∧ PlanVertexId.variable v ∉ a.1 then
          (a.1 ++ [PlanVertexId.variable v], a.2 ++ [v])
        else a)
      (cur, acc.2)
    finalizeStash g plan rest folded

/-- `PartialCostPlan::finalize_current_step`. -/
def finalizeCurrentStep (g : PlanGraph) (ho : HOrder) (plan : PartialCostPlan) :
    List PlanVertexId × List Nat :=
  let stepPatterns := (ho.ordPat plan.ongoingStep).map PlanVertexId.pattern
  let stepVars :=
    match plan.ongoingStepJoinVar with
    | some joinVar =>
      PlanVertexId.variable joinVar ::
        ((ho.ordVar plan.ongoingStepProducedVars).filter (fun v =>
          decide (v ≠ joinVar) &&
            decide (PlanVertexId.variable v ∉ plan.vertexOrdering))).map PlanVertexId.variable
    | none =>
      ((ho.ordVar plan.ongoingStepProducedVars).filter (fun v =>
        decide (PlanVertexId.variable v ∉ plan.vertexOrdering))).map PlanVertexId.variable
  finalizeStash g plan plan.ongoingStepStash (stepPatterns ++ stepVars, [])

/-- `PartialCostPlan::clone_and_extend_with_continued_step`. -/
def cloneExtendContinuedStep (g : PlanGraph) (plan : PartialCostPlan)
    (e : StepExtension) : PartialCostPlan :=
  let newOngoingProduced := extendSet plan.ongoingStepProducedVars
    ((g.patternVars e.patternId).filter (fun v => decide (v ∉ plan.allProducedVars)))
  { plan with
      ongoingStep := insertIfAbsent plan.ongoingStep e.patternId
      patternMetadata := insertMeta plan.patternMetadata e.patternId e.patternMetadata
      remainingPatterns := plan.remainingPatterns.erase e.patternId
      ongoingStepCost := e.stepCost
      ongoingStepProducedVars := newOngoingProduced
      ongoingStepJoinVar := e.stepJoinVar
      heuristic := e.heuristic
      allProducedVars := extendSet plan.allProducedVars newOngoingProduced }

/-- `PartialCostPlan::clone_and_extend_with_new_step`: finalize the current
step into the ordering, charge the ongoing step and `TRIVIAL_COST` per stashed
pattern to the cumulative cost, and open a fresh step with the extension. -/
def cloneExtendNewStep (g : PlanGraph) (ho : HOrder) (plan : PartialCostPlan)
    (e : StepExtension) : PartialCostPlan :=
  let finalized := finalizeCurrentStep g ho plan
  let newOngoingProduced :=
    extendSet [] ((g.patternVars e.patternId).filter (fun v => decide (v ∉ plan.allProducedVars)))
  { vertexOrdering := plan.vertexOrdering ++ finalized.1
    cumulativeCost := (plan.cumulativeCost.chain plan.ongoingStepCost).chain
      ⟨Frac.ofNat plan.ongoingStepStash.length * trivialCostConst, 1⟩
    ongoingStep := [e.patternId]
    ongoingStepStash := []
    ongoingStepCost := e.stepCost
    ongoingStepProducedVars := newOngoingProduced
    ongoingStepStashProducedVars := []
    ongoingStepJoinVar := none
    allProducedVars := extendSet (extendSet plan.allProducedVars finalized.2) newOngoingProduced
    patternMetadata := insertMeta plan.patternMetadata e.patternId e.patternMetadata
    remainingPatterns := plan.remainingPatterns.erase e.patternId
    heuristic := e.heuristic }

/-- `PartialCostPlan::extend_with`: a trivial extension is stashed; a
non-constraint always opens a new step; a constraint continues the ongoing
step when it joins compatibly and opens a new step otherwise. -/
def extendWith (g : PlanGraph) (ho : HOrder) (plan : PartialCostPlan)
    (e : StepExtension) : PartialCostPlan :=
  if stepExtIsTrivial g e then addToStash g plan e.patternId
  else if g.isConstraint e.patternId = false then cloneExtendNewStep g ho plan e
  else if e.stepJoinVar.isSome ∧
      (plan.ongoingStepJoinVar = none ∨ plan.ongoingStepJoinVar = e.stepJoinVar) then
    cloneExtendContinuedStep g plan e
  else cloneExtendNewStep g ho plan e

/-- `PartialCostPlan::into_complete_plan`. -/
def intoCompletePlan (g : PlanGraph) (ho : HOrder) (plan : PartialCostPlan) :
    CompleteCostPlan :=
  { vertexOrdering := plan.vertexOrdering ++ (finalizeCurrentStep g ho plan).1
    patternMetadata := plan.patternMetadata
    cumulativeCost := (plan.cumulativeCost.chain plan.ongoingStepCost).chain
      ⟨Frac.ofNat plan.ongoingStepStash.length * trivialCostConst, 1⟩ }

/-- `PartialCostPlan::hash` (`PartialPlanHash`): the number of remaining
patterns, the *sorted* set of pattern ids already in the ordering, the sorted
set of ongoing non-trivial patterns, and the join variable.  Sorting reflects
the `BTreeSet`s of the source. -/
def planHash (plan : PartialCostPlan) : Nat × List Nat × List Nat × Option Nat :=
  (plan.remainingPatterns.length,
    (plan.vertexOrdering.filterMap (fun v =>
      match v with
      | PlanVertexId.pattern p => some p
      | PlanVertexId.variable _ => none)).insertionSort (· ≤ ·),
    plan.ongoingStep.insertionSort (· ≤ ·),
    plan.ongoingStepJoinVar)

/-- The drain order of the plans heap: ascending heuristic cost
(`impl Ord for PartialCostPlan` compares only `heuristic.cost`). -/
def planLE (a b : PartialCostPlan) : Prop :=
  a.heuristic.cost ≤ b.heuristic.cost

instance : DecidableRel planLE := fun a b => by
  unfold planLE; infer_instance

/-- The dedup-and-take loop of `beam_search_plan`: walk the drained plans,
skip any whose hash was seen, and stop once `beam_width` plans are kept. -/
def dedupTake (width : Nat) :
    List PartialCostPlan → List (Nat × List Nat × List Nat × Option Nat) → Nat →
    List PartialCostPlan
  | [], _, _ => []
  | p :: rest, seen, kept =>
    if planHash p ∈ seen then dedupTake width rest seen kept
    else if width ≤ kept + 1 then [p]
    else p :: dedupTake width rest (planHash p :: seen) (kept + 1)

/-- The beam-search loop state: the surviving plans and the current widths. -/
structure BeamState where
  plans : List PartialCostPlan
  beamW : Nat
  extW : Nat
  deriving Repr

/-- One iteration of the beam-search loop (`for i in 0..num_patterns`): narrow
the widths on even iterations, extend every surviving plan with its best
`extension_width` extensions (a trivial extension preempting all others), then
keep the `beam_width` best new plans deduplicated by hash. -/
def beamIter (g : PlanGraph) (ho : HOrder) (st : BeamState) (i : Nat) : BeamState :=
  let bw := if i % 2 = 0 then max (st.beamW - 1) 2 else st.beamW
  let ew := if i % 2 = 0 then max (st.extW - 1) 2 else st.extW
  let newPlans := st.plans.flatMap (fun plan =>
    (((collectTrivialBreak g (extensionsList g ho plan)).insertionSort extLE).take ew).map
      (extendWith g ho plan))
  { plans := dedupTake bw (newPlans.insertionSort planLE) [] 0
    beamW := bw
    extW := ew }

/-- The surviving partial plans after `num_patterns` beam-search iterations. -/
def beamSearchFinal (g : PlanGraph) (ho : HOrder) : List PartialCostPlan :=
  ((List.range g.patterns.length).foldl (beamIter g ho)
    { plans := [initPlan g]
      beamW := max 2 (min (2 * g.patterns.length) maxBeamWidth)
      extW := g.patterns.length / 2 + 5 }).plans

/-- `Iterator::min` on the surviving plans under `impl Ord for PartialCostPlan`
(compare `heuristic.cost`; the first of several minima is returned). -/
def argminFirst : List PartialCostPlan → Option PartialCostPlan
  | [] => none
  | p :: rest =>
    some (rest.foldl (fun best q => if q.heuristic.cost < best.heuristic.cost then q else best) p)

/-- `ConjunctionPlanBuilder::beam_search_plan`: run the loop, pick the minimum
surviving plan under the plan ordering, and finalize it (`none` models the
`ExpectedPlannableConjunction` error). -/
def beamSearchPlan (g : PlanGraph) (ho : HOrder) : Option CompleteCostPlan :=
  (argminFirst (beamSearchFinal g ho)).map (intoCompletePlan g ho)

/-! ## Concrete planner instances for the counterexamples -/

/-- A three-pattern conjunction: constraint pattern 0 produces variable 0,
constraint pattern 1 produces variable 1, and pattern 2 is a pure check on
variable 0 (a comparison on a bound variable), trivial once variable 0 is
available.  Retrieving pattern 0 is cheaper once variable 1 is bound (cost 2
instead of 3), as its cost oracle reports. -/
def gC2 : PlanGraph :=
  { patterns := [0, 1, 2]
    inputVars := []
    patternVars := fun p => if p = 0 then [0] else if p = 1 then [1] else [0]
    isConstraint := fun p => p ≤ 1
    canBeTrivial := fun p => p = 2
    isValid := fun p avail => if p = 2 then decide (PlanVertexId.variable 0 ∈ avail) else true
    canJoinOn := fun _ _ => false
    joinFrom := fun _ _ _ _ => none
    directionFromJoinVar := fun _ _ _ _ => none
    costAndMetadata := fun p inputs _ =>
      if p = 0 then
        if PlanVertexId.variable 1 ∈ inputs then (⟨2, 1⟩, CostMetaData.direction Direction.canonical)
        else (⟨3, 1⟩, CostMetaData.direction Direction.canonical)
      else if p = 1 then (⟨3, 1⟩, CostMetaData.direction Direction.canonical)
      else (⟨trivialCostConst, 1⟩, CostMetaData.mdNone)
    restrictedOutputSize := fun _ _ => 1 }

/-- The beam state entering iteration 0 of `beam_search_plan` on `gC2`
(widths as computed in the source for three patterns). -/
def beamInitC2 : BeamState :=
  { plans := [initPlan gC2]
    beamW := max 2 (min (2 * gC2.patterns.length) maxBeamWidth)
    extW := gC2.patterns.length / 2 + 5 }

/-- The surviving plans of the beam search on `gC2` under the identity
iteration order. -/
def c2Final : List PartialCostPlan := beamSearchFinal gC2 hoId

/-- The plan the source selects on `gC2` (`Iterator::min` under the
heuristic-cost ordering). -/
def c2Chosen : PartialCostPlan := (argminFirst c2Final).getD (initPlan gC2)

/-- The other surviving plan on `gC2`, which finalizes to a strictly cheaper
cumulative cost than the chosen one. -/
def c2Cheaper : PartialCostPlan := c2Final.getD 1 (initPlan gC2)

/-- The surviving partial plan `[pattern 1]` after one beam iteration on
`gC2`: pattern 1 is its ongoing step, variable 1 is produced both in the
ongoing step and in `all_produced_vars`, and patterns 0 and 2 remain.  Used to
exhibit the double counting in the completion heuristic. -/
def c4Plan : PartialCostPlan := (beamIter gC2 hoId beamInitC2 0).plans.getD 1 (initPlan gC2)

/-- The number of distinct variables produced after extending the plan with
the pattern: the produced set (which already contains the ongoing step's
variables) extended with the pattern's variables. -/
def distinctProducedAfter (g : PlanGraph) (plan : PartialCostPlan) (pattern : Nat) : Nat :=
  (extendSet plan.allProducedVars (g.patternVars pattern)).length

/-- The completion heuristic as the claim states it (spec section 4.2): for
`R > 1` remaining patterns,
`AVERAGE_STEP_COST * R * (1 - VARIABLE_PRODUCTION_ADVANTAGE)^p` with `p` the
number of *distinct* variables produced after this extension; `NOOP` for
`R = 1`.  Stated from the claim's words, for comparison against the source
function `heuristicPlanCompletionCost`. -/
def specHeuristicCompletion (g : PlanGraph) (plan : PartialCostPlan) (pattern : Nat) : Cost :=
  if plan.remainingPatterns.length = 1 then Cost.noop
  else
    ⟨averageStepCost * Frac.ofNat plan.remainingPatterns.length *
        (1 - variableProductionAdvantage) ^ distinctProducedAfter g plan pattern,
      averageQueryOutputSize⟩

/-- A one-pattern conjunction whose single constraint produces two variables,
so that `finalize_current_step` has to enumerate a two-element produced-vars
hash set into the final ordering. -/
def gC3 : PlanGraph :=
  { patterns := [0]
    inputVars := []
    patternVars := fun _ => [0, 1]
    isConstraint := fun _ => true
    canBeTrivial := fun _ => false
    isValid := fun _ _ => true
    canJoinOn := fun _ _ => false
    joinFrom := fun _ _ _ _ => none
    directionFromJoinVar := fun _ _ _ _ => none
    costAndMetadata := fun _ _ _ => (⟨5, 1⟩, CostMetaData.direction Direction.canonical)
    restrictedOutputSize := fun _ _ => 1 }

/-! ## Concrete executor instances for the counterexamples -/

/-- Two iterators of which exactly one still peeks the intersection value 5:
the source activates the cartesian sub-executor on this state. -/
def c1Iterators : List TupleIt := [⟨[⟨5, []⟩]⟩, ⟨[⟨6, []⟩]⟩]

/-- Three instruction executors; executor `i` generates rows whose written
value is `100 + i`, so theorems can tell which executor an iterator came from. -/
def c5Execs : List Exec :=
  [⟨100, fun _ => ⟨[⟨7, [(0, 100)]⟩, ⟨7, [(1, 100)]⟩]⟩⟩,
   ⟨101, fun _ => ⟨[⟨7, [(0, 101)]⟩, ⟨8, [(0, 101)]⟩]⟩⟩,
   ⟨102, fun _ => ⟨[⟨7, [(0, 102)]⟩, ⟨8, [(0, 102)]⟩]⟩⟩]

/-- The step's intersection iterators after the intersection at value 7 was
advanced past: iterators 0 and 2 still peek 7, iterator 1 does not, so the
cartesian contribution indices are `[0, 2]` — not contiguous. -/
def c5MainIterators : List TupleIt :=
  [⟨[⟨7, [(0, 100)]⟩, ⟨7, [(1, 100)]⟩]⟩, ⟨[⟨9, [(0, 101)]⟩]⟩, ⟨[⟨7, [(0, 102)]⟩, ⟨8, [(0, 102)]⟩]⟩]

/-- The cartesian iterator right after `activate` on the state above. -/
def c5Activated : CartesianState :=
  (CartesianState.new 2 3).activate c5Execs 7 [none, none] [some 7, none] 1 c5MainIterators

/-- An intersection executor mid-stream: the cartesian sub-executor is active
with an open iterator slot, there is pending input, and the step iterators are
open. -/
def c6State : IntersectionExecState :=
  { iterators := [⟨[⟨7, [(0, 1)]⟩]⟩]
    cartesianIterator :=
      { isActive := true
        intersectionValue := 7
        inputRow := [none]
        intersectionSource := [some 7]
        intersectionMultiplicity := 1
        cartesianExecutorIndices := [0]
        iterators := [some ⟨[⟨7, [(0, 2)]⟩]⟩] }
    input := some [[some 1]]
    intersectionValue := some 7
    intersectionMultiplicity := 1 }

/-! ## Theorems -/

/-- C1, as stated, fails: on two iterators of which exactly one still peeks
the intersection value 5, the source activates the cartesian sub-executor
although not more than one iterator matches. -/
theorem c1_not_more_than_one :
    ¬ (mayActivateCartesian c1Iterators 5 = true ↔ 1 < countMatching c1Iterators 5) := by
  decide

/-- C1 (amended): after an intersection is recorded and the iterators
advanced, the cartesian sub-executor is activated iff the step has more than
one iterator and at least one of them still peeks a first-unbound value equal
to the recorded intersection value. -/
theorem c1_activation_iff_at_least_one (iterators : List TupleIt) (v : Nat) :
    mayActivateCartesian iterators v = true ↔
      iterators.length ≠ 1 ∧ 1 ≤ countMatching iterators v := by
  unfold mayActivateCartesian countMatching
  split
  · simp_all
  · rw [List.any_eq_true]
    rw [Nat.one_le_iff_ne_zero, ← Nat.pos_iff_ne_zero, List.countP_pos_iff]
    simp_all

/-- C5: on contribution indices `[0, 2]`, when the iterator in slot 2 leaves
the intersection value, `find_next` rebuilds that slot from
`executors[executor_index] = executors[1]` — not from the iterator's own
instruction executor `executors[2]`.  The slot ends up holding rows written by
executor 1 (value tag 101), while the iterator's own executor would have
produced rows with tag 102. -/
theorem c5_findnext_uses_wrong_executor :
    c5Activated.cartesianExecutorIndices = [0, 2] ∧
    (c5Activated.findNext c5Execs).2 = true ∧
    (c5Activated.findNext c5Execs).1.iterators.getD 2 none =
      some ⟨[⟨7, [(0, 101)]⟩, ⟨8, [(0, 101)]⟩]⟩ ∧
    reopenIterator (c5Execs.getD 2 defaultExec) 7 [none, none] =
      ⟨[⟨7, [(0, 102)]⟩, ⟨8, [(0, 102)]⟩]⟩ := by
  decide

/-- C6: `IntersectionExecutor::reset` clears the input and the intersection
iterators but leaves the cartesian sub-executor untouched: on a state whose
cartesian iterator is active with an open slot, it stays active with the slot
open after `reset` (and `CartesianIterator::clear` would not reset the
activation flag either). -/
theorem c6_reset_leaves_cartesian_open :
    c6State.reset.input = none ∧
    c6State.reset.iterators = [] ∧
    c6State.reset.cartesianIterator = c6State.cartesianIterator ∧
    c6State.cartesianIterator.isActive = true ∧
    (c6State.cartesianIterator.iterators.getD 0 none).isSome = true ∧
    c6State.cartesianIterator.clear.isActive = true := by
  decide

/-- The multiplicity fold of
`advance_intersection_iterators_with_multiplicity`, unrolled. -/
theorem advancePast_foldl (its : List TupleIt) (acc : List TupleIt) (m : Nat) :
    its.foldl
      (fun (a : List TupleIt × Nat) it =>
        let stepped := it.advancePast
        (a.1 ++ [stepped.1], a.2 * stepped.2)) (acc, m) =
    (acc ++ its.map (fun it => it.advancePast.1),
      m * (its.map (fun it => it.advancePast.2)).prod) := by
  induction its generalizing acc m with
  | nil => simp
  | cons it rest ih => simp [ih, Nat.mul_assoc]

/-- C7: whenever an intersection is found, the multiplicity recorded for the
emitted row (`record_intersection` resets it to 1, the advancement pass then
overwrites it) is the product, over all of the step's open iterators, of the
duplicate counts their `advance_past()` calls return; the iterators end up
each advanced past their duplicates. -/
theorem c7_multiplicity_is_product (s : EmitState) :
    writeNextRowMultiplicity (intersectionFoundStep s) =
      (s.iterators.map (fun it => it.advancePast.2)).prod ∧
    (intersectionFoundStep s).iterators = s.iterators.map (fun it => it.advancePast.1) := by
  unfold writeNextRowMultiplicity intersectionFoundStep
    advanceIntersectionIteratorsWithMultiplicity recordIntersectionMult
  rw [advancePast_foldl]
  simp

/-- C8: `ImmediateExecutor::new_unsorted_join` returns the `UnsortedJoin`
unimplemented-feature error before doing anything; it never constructs an
executor. -/
theorem c8_unsorted_join_unimplemented (step : UnsortedJoinStep) :
    newUnsortedJoin step =
      Except.error (ConceptReadError.unimplementedFunctionality
        UnimplementedFeature.unsortedJoin) ∧
    ∀ ex : ImmediateExecutorKind, newUnsortedJoin step ≠ Except.ok ex := by
  refine ⟨rfl, ?_⟩
  intro ex h
  simp [newUnsortedJoin] at h

/-- The batch-filling loop preserves non-emptiness of the batch being built. -/
theorem fillBatch_ne_nil {σ α : Type} (next : σ → σ × Bool) (write : σ → α) :
    ∀ (n : Nat) (s : σ) (acc : List α), acc ≠ [] → (fillBatch next write n s acc).2 ≠ [] := by
  intro n
  induction n with
  | zero => intro s acc h; exact h
  | succ n ih =>
    intro s acc h
    unfold fillBatch
    dsimp only
    split
    · exact ih _ _ (by simp)
    · exact h

/-- C10: `batch_continue` of the intersection, assignment and check executors
never returns an empty batch: the intersection executor allocates a batch only
once one answer is confirmed, and the assignment and check executors return
`None` when their output batch is empty. -/
theorem c10_batches_never_empty :
    (∀ (σ α : Type) (next : σ → σ × Bool) (write : σ → α) (capacity : Nat) (s : σ),
      (mayComputeNextBatch next write capacity s).2 ≠ some []) ∧
    (∀ (evalExpr : ERow → Except Nat Nat) (selected : List Nat) (outputPos : Option Nat)
        (width capacity : Nat) (prepared : Option (List ERow)),
      assignBatchContinue evalExpr selected outputPos width capacity prepared ≠
        Except.ok (some [])) ∧
    (∀ (check : ERow → Except Nat Bool) (selected : List Nat) (width : Nat)
        (input : Option (List ERow)),
      checkBatchContinue check selected width input ≠ Except.ok (some [])) := by
  refine ⟨?_, ?_, ?_⟩
  · intro σ α next write capacity s
    unfold mayComputeNextBatch
    dsimp only
    split
    · have h := fillBatch_ne_nil next write (capacity - 1) (next s).1 [write (next s).1] (by simp)
      simp only [ne_eq, Option.some.injEq]
      intro hc
      exact h hc
    · simp
  · intro evalExpr selected outputPos width capacity prepared
    unfold assignBatchContinue
    cases prepared with
    | none => simp
    | some rows =>
      cases h : assignLoop evalExpr selected outputPos width rows capacity [] with
      | error e => simp [h]
      | ok out =>
        simp only [h]
        rcases eq_or_ne out [] with rfl | hne
        · simp
        · rw [if_neg (by simp [hne])]
          simp [hne]
  · intro check selected width input
    unfold checkBatchContinue
    cases input with
    | none => simp
    | some rows =>
      cases h : checkLoop check selected width rows [] with
      | error e => simp [h]
      | ok out =>
        simp only [h]
        rcases eq_or_ne out [] with rfl | hne
        · simp
        · rw [if_neg (by simp [hne])]
          simp [hne]

/-- Every candidate extension of a partial plan extends it with one of its own
remaining patterns. -/
theorem extensionsList_patternId_mem (g : PlanGraph) (ho : HOrder)
    (hlaw : LawfulHOrder ho) (plan : PartialCostPlan) :
    ∀ e ∈ extensionsList g ho plan, e.patternId ∈ plan.remainingPatterns := by
  intro e he
  unfold extensionsList candidatePairs at he
  rw [List.mem_map] at he
  obtain ⟨pr, hpr, rfl⟩ := he
  rw [List.mem_flatMap] at hpr
  obtain ⟨p, hp, hvar⟩ := hpr
  rw [List.mem_filter] at hp
  have hmem : p ∈ plan.remainingPatterns := (hlaw.1 plan.remainingPatterns).mem_iff.mp hp.1
  have hfst : pr.1 = p := by
    cases hjd : determineJoinability g ho plan p with
    | none =>
      simp only [hjd, List.mem_singleton] at hvar
      simp [hvar]
    | some v =>
      simp only [hjd, List.mem_cons, List.not_mem_nil, or_false] at hvar
      rcases hvar with h | h <;> simp [h]
  show (mkExtension g ho plan pr).patternId ∈ plan.remainingPatterns
  simpa [mkExtension, hfst] using hmem

/-- The trivial-break collection only yields extensions that were produced. -/
theorem collectTrivialBreak_subset (g : PlanGraph) (l : List StepExtension) :
    ∀ e ∈ collectTrivialBreak g l, e ∈ l := by
  intro e he
  unfold collectTrivialBreak at he
  cases h : l.find? (stepExtIsTrivial g) with
  | none => rw [h] at he; exact he
  | some t =>
    rw [h] at he
    simp only [List.mem_singleton] at he
    subst he
    exact List.mem_of_find?_eq_some h

/-- Every branch of `extend_with` removes exactly the extension's pattern from
the remaining set. -/
theorem extendWith_remaining (g : PlanGraph) (ho : HOrder) (plan : PartialCostPlan)
    (e : StepExtension) :
    (extendWith g ho plan e).remainingPatterns = plan.remainingPatterns.erase e.patternId := by
  unfold extendWith
  split
  · simp [addToStash]
  · split
    · simp [cloneExtendNewStep]
    · split
      · simp [cloneExtendContinuedStep]
      · simp [cloneExtendNewStep]

/-- The dedup-and-take loop keeps only plans it was given. -/
theorem dedupTake_subset (width : Nat) :
    ∀ (l : List PartialCostPlan) (seen : List (Nat × List Nat × List Nat × Option Nat))
      (kept : Nat) (p : PartialCostPlan), p ∈ dedupTake width l seen kept → p ∈ l := by
  intro l
  induction l with
  | nil => intro seen kept p h; exact absurd h (by simp [dedupTake])
  | cons q rest ih =>
    intro seen kept p h
    unfold dedupTake at h
    split at h
    · exact List.mem_cons_of_mem q (ih _ _ p h)
    · split at h
      · simp only [List.mem_singleton] at h; simp [h]
      · rcases List.mem_cons.mp h with rfl | h'
        · simp
        · exact List.mem_cons_of_mem q (ih _ _ p h')

/-- One beam iteration drops the length of every surviving plan's remaining
set by exactly one. -/
theorem beamIter_remaining_length (g : PlanGraph) (ho : HOrder) (hlaw : LawfulHOrder ho)
    (st : BeamState) (i m : Nat) (hst : ∀ p ∈ st.plans, p.remainingPatterns.length = m) :
    ∀ q ∈ (beamIter g ho st i).plans, q.remainingPatterns.length = m - 1 := by
  intro q hq
  unfold beamIter at hq
  simp only at hq
  have hq2 := dedupTake_subset _ _ _ _ _ hq
  have hq3 : q ∈ st.plans.flatMap (fun plan =>
      (((collectTrivialBreak g (extensionsList g ho plan)).insertionSort extLE).take
        (if i % 2 = 0 then max (st.extW - 1) 2 else st.extW)).map (extendWith g ho plan)) :=
    (List.perm_insertionSort planLE _).mem_iff.mp hq2
  rw [List.mem_flatMap] at hq3
  obtain ⟨plan, hplan, hq4⟩ := hq3
  rw [List.mem_map] at hq4
  obtain ⟨e, he, rfl⟩ := hq4
  have he2 : e ∈ collectTrivialBreak g (extensionsList g ho plan) :=
    (List.perm_insertionSort extLE _).mem_iff.mp (List.mem_of_mem_take he)
  have he3 : e.patternId ∈ plan.remainingPatterns :=
    extensionsList_patternId_mem g ho hlaw plan e (collectTrivialBreak_subset g _ e he2)
  rw [extendWith_remaining, List.length_erase_of_mem he3, hst plan hplan]

/-- Iterating the beam loop `l.length` times drops every surviving plan's
remaining-set length by `l.length`. -/
theorem beamFold_remaining_length (g : PlanGraph) (ho : HOrder) (hlaw : LawfulHOrder ho) :
    ∀ (l : List Nat) (st : BeamState) (m : Nat),
      (∀ p ∈ st.plans, p.remainingPatterns.length = m) →
      ∀ q ∈ (l.foldl (beamIter g ho) st).plans, q.remainingPatterns.length = m - l.length := by
  intro l
  induction l with
  | nil => intro st m hst q hq; simpa using hst q hq
  | cons i rest ih =>
    intro st m hst q hq
    have step := beamIter_remaining_length g ho hlaw st i m hst
    have := ih (beamIter g ho st i) (m - 1) step q hq
    simp only [List.length_cons]
    omega

/-- The argmin fold of `Iterator::min` returns a member that minimizes the
heuristic cost. -/
theorem argminFirst_spec :
    ∀ (l : List PartialCostPlan) (p : PartialCostPlan), argminFirst l = some p →
      p ∈ l ∧ ∀ q ∈ l, p.heuristic.cost ≤ q.heuristic.cost := by
  have key : ∀ (rest : List PartialCostPlan) (a : PartialCostPlan),
      (rest.foldl (fun best q => if q.heuristic.cost < best.heuristic.cost then q else best) a
        ∈ a :: rest) ∧
      (rest.foldl (fun best q => if q.heuristic.cost < best.heuristic.cost then q else best)
          a).heuristic.cost ≤ a.heuristic.cost ∧
      ∀ q ∈ rest,
        (rest.foldl (fun best q => if q.heuristic.cost < best.heuristic.cost then q else best)
            a).heuristic.cost ≤ q.heuristic.cost := by
    intro rest
    induction rest with
    | nil => intro a; exact ⟨List.mem_singleton_self a, Frac.le_refl _, by simp⟩
    | cons b rest ih =>
      intro a
      simp only [List.foldl_cons]
      by_cases hb : b.heuristic.cost < a.heuristic.cost
      · rw [if_pos hb]
        obtain ⟨hmem, hle, hall⟩ := ih b
        refine ⟨List.mem_cons_of_mem a hmem, Frac.le_trans hle (Frac.le_of_lt hb), ?_⟩
        intro q hq
        rcases List.mem_cons.mp hq with rfl | h
        · exact hle
        · exact hall q h
      · rw [if_neg hb]
        obtain ⟨hmem, hle, hall⟩ := ih a
        refine ⟨?_, hle, ?_⟩
        · rcases List.mem_cons.mp hmem with h | h
          · rw [h]; exact List.mem_cons_self a _
          · exact List.mem_cons_of_mem a (List.mem_cons_of_mem b h)
        · intro q hq
          rcases List.mem_cons.mp hq with rfl | h
          · exact Frac.le_trans hle (Frac.le_of_not_lt hb)
          · exact hall q h
  intro l p hp
  cases l with
  | nil => exact absurd hp (by simp [argminFirst])
  | cons a rest =>
    simp only [argminFirst, Option.some.injEq] at hp
    subst hp
    obtain ⟨hmem, hle, hall⟩ := key rest a
    refine ⟨hmem, ?_⟩
    intro q hq
    rcases List.mem_cons.mp hq with rfl | h
    · exact hle
    · exact hall q h

/-- C2 (amended): after `num_patterns` beam-search iterations every surviving
partial plan has an empty `remaining_patterns` set, and the plan finalized
into the `CompletePlan` is one minimizing `heuristic.cost` — the field the
plan ordering compares — among the surviving plans (which, because of stale
heuristics of plans whose last extensions were stashed as trivial, need not
have the lowest finalized `cumulative_cost`). -/
theorem c2_termination_and_heuristic_min (g : PlanGraph) (ho : HOrder)
    (hlaw : LawfulHOrder ho) :
    (∀ p ∈ beamSearchFinal g ho, p.remainingPatterns = []) ∧
    (∀ p, argminFirst (beamSearchFinal g ho) = some p →
      p ∈ beamSearchFinal g ho ∧
        ∀ q ∈ beamSearchFinal g ho, p.heuristic.cost ≤ q.heuristic.cost) := by
  constructor
  · intro p hp
    unfold beamSearchFinal at hp
    have hinit : ∀ q ∈ [initPlan g], q.remainingPatterns.length = g.patterns.length := by
      intro q hq
      simp only [List.mem_singleton] at hq
      subst hq
      rfl
    have hlen := beamFold_remaining_length g ho hlaw (List.range g.patterns.length)
      { plans := [initPlan g], beamW := max 2 (min (2 * g.patterns.length) maxBeamWidth),
        extW := g.patterns.length / 2 + 5 } g.patterns.length hinit p hp
    rw [List.length_range, Nat.sub_self] at hlen
    exact List.length_eq_zero.mp hlen
  · intro p hp
    exact argminFirst_spec _ p hp

/-- C2 witness: on the concrete three-pattern conjunction, the lawful identity
iteration order yields a selected plan with empty remaining patterns that
belongs to the surviving beam. -/
theorem c2_termination_witness :
    argminFirst c2Final = some c2Chosen ∧ c2Chosen.remainingPatterns = [] := by
  have hlaw : LawfulHOrder hoId := ⟨fun l => List.Perm.refl l, fun l => List.Perm.refl l⟩
  have harg : argminFirst c2Final = some c2Chosen := by decide
  have h := c2_termination_and_heuristic_min gC2 hoId hlaw
  exact ⟨harg, h.1 c2Chosen (h.2 c2Chosen harg).1⟩

/-- C2, as stated, fails: on the concrete three-pattern conjunction the beam
keeps two complete plans; the source selects the one minimizing
`heuristic.cost`, and the other surviving plan finalizes to a strictly lower
`cumulative_cost` (5.01 against 6.01). -/
theorem c2_chosen_not_min_cumulative :
    argminFirst c2Final = some c2Chosen ∧
    c2Cheaper ∈ c2Final ∧
    (intoCompletePlan gC2 hoId c2Cheaper).cumulativeCost.cost <
      (intoCompletePlan gC2 hoId c2Chosen).cumulativeCost.cost := by
  decide

/-- Sorting with `≤` is invariant under permutation of the input. -/
theorem insertionSort_perm_eq (l l' : List Nat) (h : l.Perm l') :
    l.insertionSort (· ≤ ·) = l'.insertionSort (· ≤ ·) := by
  refine List.eq_of_perm_of_sorted ?_ (List.sorted_insertionSort _ l)
    (List.sorted_insertionSort _ l')
  exact ((List.perm_insertionSort _ l).trans h).trans (List.perm_insertionSort _ l').symm

/-- C3 (amended): the beam-dedup key (`PartialPlanHash`) is built from sorted
(`BTreeSet`) snapshots, so it does not depend on the iteration order of the
underlying hash sets: two plans whose set-valued fields are permutations of
one another (and whose join variable agrees) hash identically. -/
theorem c3_dedup_key_order_invariant (p q : PartialCostPlan)
    (hrem : p.remainingPatterns.Perm q.remainingPatterns)
    (hord : p.vertexOrdering.Perm q.vertexOrdering)
    (hstep : p.ongoingStep.Perm q.ongoingStep)
    (hjoin : p.ongoingStepJoinVar = q.ongoingStepJoinVar) :
    planHash p = planHash q := by
  unfold planHash
  simp only [Prod.mk.injEq]
  exact ⟨hrem.length_eq, insertionSort_perm_eq _ _ (hord.filterMap _),
    insertionSort_perm_eq _ _ hstep, hjoin⟩

/-- C3 witness: two concrete plans whose remaining sets, orderings and
ongoing steps are permutations of one another receive the same dedup key. -/
theorem c3_dedup_key_witness :
    planHash { initPlan gC3 with remainingPatterns := [1, 2], ongoingStep := [3, 4] } =
      planHash { initPlan gC3 with remainingPatterns := [2, 1], ongoingStep := [4, 3] } := by
  exact c3_dedup_key_order_invariant _ _ (by decide) (by decide) (by decide) rfl

/-- C3, as stated, fails: planning the one-pattern conjunction under two
legitimate hash-set iteration orders (identity and reversed, both lawful
enumerations) yields different vertex orderings — `finalize_current_step`
emits the produced variables of the final step in hash-set iteration order. -/
theorem c3_ordering_depends_on_iteration_order :
    LawfulHOrder hoId ∧ LawfulHOrder hoRev ∧
      beamSearchPlan gC3 hoId ≠ beamSearchPlan gC3 hoRev := by
  refine ⟨⟨fun l => List.Perm.refl l, fun l => List.Perm.refl l⟩,
    ⟨fun l => l.reverse_perm, fun l => l.reverse_perm⟩, ?_⟩
  decide

/-- `HashSet::extend` on a duplicate-free batch appends exactly the new
elements, in order. -/
theorem extendSet_eq_append (l xs : List Nat) (h : xs.Nodup) :
    extendSet l xs = l ++ xs.filter (fun x => decide (x ∉ l)) := by
  induction xs generalizing l with
  | nil => simp [extendSet]
  | cons x xs ih =>
    rw [List.nodup_cons] at h
    unfold extendSet at *
    simp only [List.foldl_cons]
    by_cases hx : x ∈ l
    · rw [show insertIfAbsent l x = l from by simp [insertIfAbsent, hx]]
      rw [ih l h.2]
      simp [List.filter_cons, hx]
    · rw [show insertIfAbsent l x = l ++ [x] from by simp [insertIfAbsent, hx]]
      rw [ih (l ++ [x]) h.2]
      have hfeq : xs.filter (fun y => decide (y ∉ l ++ [x])) =
          xs.filter (fun y => decide (y ∉ l)) := by
        apply List.filter_congr
        intro y hy
        have hyx : y ≠ x := fun hEq => h.1 (hEq ▸ hy)
        simp [List.mem_append, hyx]
      rw [hfeq]
      simp [List.filter_cons, hx]

/-- C4 (amended): the completion heuristic is `NOOP` when one pattern remains;
otherwise its exponent is the number of distinct variables produced after the
extension *plus* the size of `ongoing_step_produced_vars` — those variables
are counted twice, because `all_produced_vars` already contains them. -/
theorem c4_heuristic_double_counts (g : PlanGraph) (plan : PartialCostPlan) (pattern : Nat)
    (hsub : ∀ v ∈ plan.ongoingStepProducedVars, v ∈ plan.allProducedVars)
    (hnd : (g.patternVars pattern).Nodup) :
    heuristicPlanCompletionCost g plan pattern =
      if plan.remainingPatterns.length = 1 then Cost.noop
      else ⟨averageStepCost * Frac.ofNat plan.remainingPatterns.length *
          (1 - variableProductionAdvantage) ^
            (distinctProducedAfter g plan pattern + plan.ongoingStepProducedVars.length),
        averageQueryOutputSize⟩ := by
  unfold heuristicPlanCompletionCost
  by_cases hrem : plan.remainingPatterns.length = 1
  · simp [hrem]
  · rw [if_neg hrem, if_neg hrem]
    have hfeq : (g.patternVars pattern).filter (fun v =>
          decide (v ∉ plan.ongoingStepProducedVars) && decide (v ∉ plan.allProducedVars)) =
        (g.patternVars pattern).filter (fun v => decide (v ∉ plan.allProducedVars)) := by
      apply List.filter_congr
      intro v _
      by_cases hall : v ∈ plan.allProducedVars
      · simp [hall]
      · have hong : v ∉ plan.ongoingStepProducedVars := fun hc => hall (hsub v hc)
        simp [hall, hong]
    have hexp : plan.allProducedVars.length + plan.ongoingStepProducedVars.length +
        ((g.patternVars pattern).filter (fun v =>
          decide (v ∉ plan.ongoingStepProducedVars) &&
            decide (v ∉ plan.allProducedVars))).length =
        distinctProducedAfter g plan pattern + plan.ongoingStepProducedVars.length := by
      unfold distinctProducedAfter
      rw [extendSet_eq_append _ _ hnd, List.length_append, hfeq]
      omega
    rw [hexp]

/-- C4 witness: the amended closed form evaluated on the reachable plan
`[pattern 1]` of the concrete conjunction, hypotheses discharged by
computation. -/
theorem c4_closed_form_witness :
    c4Plan.ongoingStepProducedVars.all (fun v => decide (v ∈ c4Plan.allProducedVars)) = true ∧
    heuristicPlanCompletionCost gC2 c4Plan 0 =
      (if c4Plan.remainingPatterns.length = 1 then Cost.noop
       else ⟨averageStepCost * Frac.ofNat c4Plan.remainingPatterns.length *
          (1 - variableProductionAdvantage) ^
            (distinctProducedAfter gC2 c4Plan 0 + c4Plan.ongoingStepProducedVars.length),
        averageQueryOutputSize⟩) := by
  refine ⟨by decide, c4_heuristic_double_counts gC2 c4Plan 0 ?_ ?_⟩
  · intro v hv
    revert v
    decide
  · decide

/-- C4, as stated, fails: on the reachable plan `[pattern 1]` (ongoing step
produced variable 1, two patterns remaining), the source heuristic for
extending with pattern 0 uses exponent 3 — strictly below the claimed formula
with the number of distinct produced variables (2). -/
theorem c4_heuristic_not_distinct_formula :
    c4Plan ∈ (beamIter gC2 hoId beamInitC2 0).plans ∧
    c4Plan.remainingPatterns.length = 2 ∧
    c4Plan.ongoingStepProducedVars = [1] ∧
    (heuristicPlanCompletionCost gC2 c4Plan 0).cost <
      (specHeuristicCompletion gC2 c4Plan 0).cost := by
  decide

/-- Lookup misses maps whose keys avoid the variable. -/
theorem lookupDep_eq_none (m : DepMap) (v : Nat) (h : v ∉ m.map (fun e => e.1)) :
    lookupDep m v = none := by
  induction m with
  | nil => rfl
  | cons e rest ih =>
    simp only [List.map_cons, List.mem_cons] at h
    push_neg at h
    have hne : ¬ e.1 = v := fun hc => h.1 hc.symm
    simp [lookupDep, hne, ih h.2]

/-- Lookup after the downgrade loop of the branch merge. -/
theorem lookupDep_downgradeMissing (d b : DepMap) (v : Nat) :
    lookupDep (downgradeMissing d b) v =
      (lookupDep d v).map (fun m => if lookupDep b v = none then downgradeNew m else m) := by
  induction d with
  | nil => simp [downgradeMissing, lookupDep]
  | cons e rest ih =>
    obtain ⟨k, m⟩ := e
    unfold downgradeMissing at *
    simp only [List.map_cons]
    by_cases hk : k = v
    · subst hk
      rcases Decidable.em (lookupDep b k = none ∧ m.isProducing = true) with hcond | hcond
      · rw [if_pos hcond]
        simp [lookupDep, hcond.1, downgradeNew, hcond.2]
      · rw [if_neg hcond]
        by_cases hb : lookupDep b k = none
        · have hm : ¬ m.isProducing = true := fun hm => hcond ⟨hb, hm⟩
          simp [lookupDep, hb, downgradeNew, hm]
        · simp [lookupDep, hb]
    · rcases Decidable.em (lookupDep b k = none ∧ m.isProducing = true) with hcond | hcond
      · rw [if_pos hcond]
        simp [lookupDep, hk, ih]
      · rw [if_neg hcond]
        simp [lookupDep, hk, ih]

/-- Lookup commutes with key-preserving entry transformations. -/
theorem lookupDep_map_keyed (t : Nat → BindingKind → BindingKind) (d : DepMap) (v : Nat) :
    lookupDep (d.map (fun e => (e.1, t e.1 e.2))) v = (lookupDep d v).map (t v) := by
  induction d with
  | nil => rfl
  | cons e rest ih =>
    obtain ⟨k, m⟩ := e
    by_cases hk : k = v
    · subst hk
      simp [lookupDep]
    · simp [lookupDep, hk, ih]

/-- Lookup after the occupied-entry update of the branch merge. -/
theorem lookupDep_mapMerge (d : DepMap) (k : Nat) (md : BindingKind) (v : Nat) :
    lookupDep (d.map (fun e => if e.1 = k then (e.1, e.2.merge md) else e)) v =
      if k = v then (lookupDep d v).map (fun m => m.merge md) else lookupDep d v := by
  have hfun : (fun e : Nat × BindingKind => if e.1 = k then (e.1, e.2.merge md) else e) =
      (fun e : Nat × BindingKind => (e.1, if e.1 = k then e.2.merge md else e.2)) := by
    funext e
    by_cases h : e.1 = k <;> simp [h]
  rw [hfun, lookupDep_map_keyed (fun key m => if key = k then m.merge md else m) d v]
  by_cases hkv : k = v
  · subst hkv
    simp
  · rw [if_neg hkv]
    cases lookupDep d v with
    | none => rfl
    | some m => simp [if_neg (fun h : v = k => hkv h.symm)]

/-- Lookup after the vacant-entry append of the branch merge. -/
theorem lookupDep_append_single (d : DepMap) (k : Nat) (m : BindingKind) (v : Nat) :
    lookupDep (d ++ [(k, m)]) v =
      match lookupDep d v with
      | some m0 => some m0
      | none => if k = v then some m else none := by
  induction d with
  | nil => simp [lookupDep]
  | cons e rest ih =>
    obtain ⟨k0, m0⟩ := e
    by_cases hk0 : k0 = v <;> simp [lookupDep, hk0, ih]

/-- Lookup after one entry of a branch is folded into the accumulated map. -/
theorem lookupDep_insertBranchEntry (d : DepMap) (k : Nat) (md : BindingKind) (v : Nat) :
    lookupDep (insertBranchEntry d (k, md)) v =
      if k = v then
        (match lookupDep d k with
         | some m => some (m.merge md)
         | none => some (downgradeNew md))
      else lookupDep d v := by
  unfold insertBranchEntry
  cases hd : lookupDep d k with
  | some m =>
    simp only [hd, Option.isSome_some]
    rw [lookupDep_mapMerge]
    by_cases hkv : k = v
    · subst hkv
      simp [hd]
    · simp [hkv]
  | none =>
    simp only [hd, Option.isSome_none]
    rw [lookupDep_append_single]
    by_cases hkv : k = v
    · subst hkv
      simp [hd, downgradeNew]
    · cases hdv : lookupDep d v <;> simp [hkv, hdv]

/-- Lookup after a whole branch is folded into the accumulated map. -/
theorem lookupDep_foldl_insert (b : DepMap) :
    ∀ (d : DepMap) (v : Nat), DepNoDupKeys b →
      lookupDep (b.foldl insertBranchEntry d) v =
        match lookupDep b v with
        | some md =>
          (match lookupDep d v with
           | some m => some (m.merge md)
           | none => some (downgradeNew md))
        | none => lookupDep d v := by
  induction b with
  | nil => intro d v _; simp [lookupDep]
  | cons e rest ih =>
    intro d v hnd
    obtain ⟨k, md⟩ := e
    have hnd' : DepNoDupKeys rest := (List.nodup_cons.mp hnd).2
    have hknot : k ∉ rest.map (fun e => e.1) := (List.nodup_cons.mp hnd).1
    simp only [List.foldl_cons]
    rw [ih _ v hnd']
    by_cases hkv : k = v
    · subst hkv
      rw [lookupDep_eq_none rest k hknot]
      rw [lookupDep_insertBranchEntry]
      simp [lookupDep]
    · rw [lookupDep_insertBranchEntry, if_neg hkv]
      simp [lookupDep, hkv]

/-- Lookup through one complete branch merge. -/
theorem lookupDep_mergeBranch (d b : DepMap) (v : Nat) (hnd : DepNoDupKeys b) :
    lookupDep (mergeBranch d b) v = stepLookup (lookupDep d v) (lookupDep b v) := by
  unfold mergeBranch
  rw [lookupDep_foldl_insert b _ v hnd, lookupDep_downgradeMissing]
  cases hb : lookupDep b v <;> cases hd : lookupDep d v <;> simp [stepLookup, hb, hd]

/-- Lookup through the fold of all later branches. -/
theorem foldl_mergeBranch_lookup :
    ∀ (rest : List DepMap) (d : DepMap) (v : Nat), (∀ b ∈ rest, DepNoDupKeys b) →
      lookupDep (rest.foldl mergeBranch d) v =
        rest.foldl (fun acc b => stepLookup acc (lookupDep b v)) (lookupDep d v) := by
  intro rest
  induction rest with
  | nil => intro d v _; rfl
  | cons b rest ih =>
    intro d v hnd
    simp only [List.foldl_cons]
    rw [ih (mergeBranch d b) v (fun x hx => hnd x (List.mem_cons_of_mem b hx))]
    rw [lookupDep_mergeBranch d b v (hnd b (List.mem_cons_self b rest))]

/-- The merged mode is producing exactly when the accumulated mode and every
later branch's mode are producing. -/
theorem stepFold_producing (v : Nat) :
    ∀ (rest : List DepMap) (acc : Option BindingKind),
      rest.foldl (fun acc b => stepLookup acc (lookupDep b v)) acc =
          some BindingKind.producing ↔
        acc = some BindingKind.producing ∧
          ∀ b ∈ rest, lookupDep b v = some BindingKind.producing := by
  intro rest
  induction rest with
  | nil => intro acc; simp
  | cons b rest ih =>
    intro acc
    simp only [List.foldl_cons]
    rw [ih]
    have hstep : stepLookup acc (lookupDep b v) = some BindingKind.producing ↔
        acc = some BindingKind.producing ∧ lookupDep b v = some BindingKind.producing := by
      cases hacc : acc with
      | none =>
        cases hb : lookupDep b v with
        | none => simp [stepLookup]
        | some md => cases md <;> simp [stepLookup, downgradeNew, BindingKind.isProducing]
      | some m =>
        cases hb : lookupDep b v with
        | none => cases m <;> simp [stepLookup, downgradeNew, BindingKind.isProducing]
        | some md =>
          cases m <;> cases md <;>
            simp [stepLookup, BindingKind.merge, BindingKind.isProducing]
    rw [hstep]
    simp only [List.forall_mem_cons]
    tauto

/-- The merged map binds the variable exactly when some branch does. -/
theorem stepFold_isSome (v : Nat) :
    ∀ (rest : List DepMap) (acc : Option BindingKind),
      (rest.foldl (fun acc b => stepLookup acc (lookupDep b v)) acc).isSome = true ↔
        acc.isSome = true ∨ ∃ b ∈ rest, (lookupDep b v).isSome = true := by
  intro rest
  induction rest with
  | nil => intro acc; simp
  | cons b rest ih =>
    intro acc
    simp only [List.foldl_cons]
    rw [ih]
    have hstep : (stepLookup acc (lookupDep b v)).isSome = true ↔
        acc.isSome = true ∨ (lookupDep b v).isSome = true := by
      cases acc <;> cases lookupDep b v <;> simp [stepLookup]
    rw [hstep]
    simp only [List.exists_mem_cons_iff]
    tauto

/-- C9: in `Disjunction::variable_dependency`, a variable is reported at all
exactly when some branch binds it, and it is reported as producing exactly
when there is at least one branch and every branch binds it in producing mode
(producing in one branch but absent from, or non-producing in, another branch
is downgraded); with no branches the map is empty. -/
theorem c9_producing_iff_all_branches (branches : List DepMap)
    (hnd : ∀ b ∈ branches, DepNoDupKeys b) :
    variableDependency [] = [] ∧
    ∀ v : Nat,
      ((lookupDep (variableDependency branches) v).isSome = true ↔
        ∃ b ∈ branches, (lookupDep b v).isSome = true) ∧
      (lookupDep (variableDependency branches) v = some BindingKind.producing ↔
        (branches ≠ [] ∧ ∀ b ∈ branches, lookupDep b v = some BindingKind.producing)) := by
  refine ⟨rfl, ?_⟩
  intro v
  cases branches with
  | nil => simp [variableDependency, lookupDep]
  | cons b0 rest =>
    have hndrest : ∀ b ∈ rest, DepNoDupKeys b :=
      fun b hb => hnd b (List.mem_cons_of_mem b0 hb)
    have hfold := foldl_mergeBranch_lookup rest b0 v hndrest
    constructor
    · rw [show variableDependency (b0 :: rest) = rest.foldl mergeBranch b0 from rfl, hfold]
      rw [stepFold_isSome]
      simp only [List.exists_mem_cons_iff]
    · rw [show variableDependency (b0 :: rest) = rest.foldl mergeBranch b0 from rfl, hfold]
      rw [stepFold_producing]
      simp only [List.forall_mem_cons, ne_eq, reduceCtorEq, not_false_iff, true_and]

/-- C9 witness: a two-branch disjunction in which variable 0 is producing in
both branches and variable 1 only in one; the merged map reports 0 as
producing. -/
theorem c9_merge_witness :
    ([[(0, BindingKind.producing)],
        [(0, BindingKind.producing), (1, BindingKind.producing)]].all
      (fun b => decide (DepNoDupKeys b)) = true) ∧
    lookupDep (variableDependency [[(0, BindingKind.producing)],
        [(0, BindingKind.producing), (1, BindingKind.producing)]]) 0 =
      some BindingKind.producing ∧
    lookupDep (variableDependency [[(0, BindingKind.producing)],
        [(0, BindingKind.producing), (1, BindingKind.producing)]]) 1 =
      some BindingKind.referencing := by
  have hnd : ∀ b ∈ [[(0, BindingKind.producing)],
      [(0, BindingKind.producing), (1, BindingKind.producing)]], DepNoDupKeys b := by
    intro b hb
    simp only [List.mem_cons, List.not_mem_nil, or_false] at hb
    rcases hb with rfl | rfl <;> simp [DepNoDupKeys]
  refine ⟨by decide, ?_, by decide⟩
  exact ((c9_producing_iff_all_branches _ hnd).2 0).2.mpr (by refine ⟨by simp, ?_⟩; decide)

end TypeDb
